import Mathlib

/-!
Verification of the chef-guard cookbook-upload gatekeeping pipeline.

This file shallowly embeds the Go source of chef-guard (cookbook.go /
validations, checks.go, chef-guard.go, and the vendored pathspec
gitignore matcher) into Lean and proves the specified properties about
it.  Go maps are modelled as association lists, md5 digests as natural
numbers (only equality of digests is ever used), and all network /
filesystem collaborators as explicit oracle parameters, so that every
function here is executable.
-/

set_option autoImplicit false

namespace ChefGuard

/-! ## A model of the Go `regexp` fragment emitted by the pathspec package

The pathspec package compiles an ignore pattern to a regular-expression
string and calls `regexp.MatchString`.  The regexes it emits use only:
literals (possibly `QuoteMeta`-escaped), `.` (any char), character
classes, `(?: )` groups, and the `?`/`+`/`*` quantifiers, all anchored
between `^` and `$`.  We model matching of that fragment with Brzozowski
derivatives, which keeps everything structurally recursive and hence
evaluable by `decide`. -/

/-- An item of a regex character class: a single character or a range. -/
inductive CItem where
  | single (c : Char)
  | range (lo hi : Char)
deriving Repr, DecidableEq

/-- Regular expressions (the fragment emitted by the pathspec package). -/
inductive RE where
  | emp                                    -- matches nothing
  | eps                                    -- matches the empty string
  | lit (c : Char)                         -- a literal character
  | anyc                                   -- `.`
  | cls (neg : Bool) (items : List CItem)  -- a character class
  | seq (a b : RE)
  | alt (a b : RE)
  | star (a : RE)
deriving Repr, DecidableEq

/-- Does a class item match a character? -/
def citemMatch (it : CItem) (c : Char) : Bool :=
  match it with
  | .single d => c == d
  | .range lo hi => lo ≤ c && c ≤ hi

/-- Does a character class match a character? -/
def clsMatch (neg : Bool) (items : List CItem) (c : Char) : Bool :=
  let m := items.any (fun it => citemMatch it c)
  if neg then !m else m

/-- Does the regex accept the empty string? -/
def nullable : RE → Bool
  | .emp => false
  | .eps => true
  | .lit _ => false
  | .anyc => false
  | .cls _ _ => false
  | .seq a b => nullable a && nullable b
  | .alt a b => nullable a || nullable b
  | .star _ => true

/-- Smart sequencing constructor (keeps derivative terms small). -/
def seqS (a b : RE) : RE :=
  match a, b with
  | .emp, _ => .emp
  | _, .emp => .emp
  | .eps, b => b
  | a, .eps => a
  | a, b => .seq a b

/-- Smart alternation constructor (keeps derivative terms small). -/
def altS (a b : RE) : RE :=
  match a, b with
  | .emp, b => b
  | a, .emp => a
  | a, b => .alt a b

/-- Brzozowski derivative of a regex by a character. -/
def deriv : RE → Char → RE
  | .emp, _ => .emp
  | .eps, _ => .emp
  | .lit c, x => if x == c then .eps else .emp
  | .anyc, _ => .eps
  | .cls n its, x => if clsMatch n its x then .eps else .emp
  | .seq a b, x =>
      if nullable a then altS (seqS (deriv a x) b) (deriv b x)
      else seqS (deriv a x) b
  | .alt a b, x => altS (deriv a x) (deriv b x)
  | .star a, x => seqS (deriv a x) (.star a)

/-- Full (anchored) match of a regex against a list of characters. -/
def reMatch : RE → List Char → Bool
  | r, [] => nullable r
  | r, c :: cs => reMatch (deriv r c) cs

/-! ### Parsing a regex string of the emitted fragment

`matchString` below models `regexp.MatchString(expr, name)` for the
expressions produced by `parsePattern`: it parses the string to an `RE`
and runs the derivative matcher.  Parsing is fuel-indexed (the fuel is
always sufficient for the given input length) so that it stays
structurally recursive.  A regex outside the fragment parses to `none`,
which we treat as the error return of `regexp.MatchString`. -/

/-- Parse the items of a character class, up to the closing bracket.
Returns the items and the rest of the input. -/
def parseClsItems : Nat → List Char → Option (List CItem × List Char)
  | 0, _ => none
  | _ + 1, [] => none
  | _ + 1, ']' :: rest => some ([], rest)
  | fuel + 1, '\\' :: c :: rest => do
      let (items, rem) ← parseClsItems fuel rest
      pure (.single c :: items, rem)
  | fuel + 1, c :: '-' :: d :: rest =>
      if d == ']' then do
        let (items, rem) ← parseClsItems fuel (d :: rest)
        pure (.single c :: .single '-' :: items, rem)
      else do
        let (items, rem) ← parseClsItems fuel rest
        pure (.range c d :: items, rem)
  | fuel + 1, c :: rest => do
      let (items, rem) ← parseClsItems fuel rest
      pure (.single c :: items, rem)

/-- Wrap a parsed atom with the quantifier that follows it, if any. -/
def applyQuant (r : RE) : List Char → RE × List Char
  | '?' :: rest => (.alt r .eps, rest)
  | '+' :: rest => (.seq r (.star r), rest)
  | '*' :: rest => (.star r, rest)
  | rest => (r, rest)

/-- Characters that may appear bare (unescaped and unquantified) in the
emitted fragment. -/
def plainChar (c : Char) : Bool :=
  !(c == '\\' || c == '.' || c == '[' || c == ']' || c == '(' || c == ')' ||
    c == '?' || c == '+' || c == '*' || c == '^' || c == '$' || c == '|' ||
    c == '\x7b' || c == '\x7d')

mutual

/-- Parse a sequence of atoms, stopping at `$`, `)` or the end. -/
def parseSeq : Nat → List Char → Option (RE × List Char)
  | 0, _ => none
  | _ + 1, [] => some (.eps, [])
  | _ + 1, '$' :: rest => some (.eps, '$' :: rest)
  | _ + 1, ')' :: rest => some (.eps, ')' :: rest)
  | fuel + 1, cs => do
      let (r1, rest) ← parseAtom fuel cs
      let (r1q, rest') := applyQuant r1 rest
      let (r2, rest'') ← parseSeq fuel rest'
      pure (.seq r1q r2, rest'')

/-- Parse one atom of the fragment. -/
def parseAtom : Nat → List Char → Option (RE × List Char)
  | 0, _ => none
  | _ + 1, [] => none
  | _ + 1, '\\' :: c :: rest => some (.lit c, rest)
  | _ + 1, '.' :: rest => some (.anyc, rest)
  | fuel + 1, '[' :: '^' :: rest => do
      let (items, rem) ← parseClsItems fuel rest
      pure (.cls true items, rem)
  | fuel + 1, '[' :: rest => do
      let (items, rem) ← parseClsItems fuel rest
      pure (.cls false items, rem)
  | fuel + 1, '(' :: '?' :: ':' :: rest => do
      let (r, rem) ← parseSeq fuel rest
      match rem with
      | ')' :: rem' => pure (r, rem')
      | _ => none
  | _ + 1, c :: rest => if plainChar c then some (.lit c, rest) else none

end

/-- Parse a full anchored regex string `^ ... $` of the fragment. -/
def parseRegex (s : String) : Option RE :=
  match s.toList with
  | '^' :: rest =>
      match parseSeq (2 * rest.length + 2) rest with
      | some (r, ['$']) => some r
      | _ => none
  | _ => none

/-- Model of `regexp.MatchString` on the emitted fragment: `none` models
the error return (regex not handled), `some b` a successful match
outcome. -/
def matchString (expr name : String) : Option Bool :=
  (parseRegex expr).map fun r => reMatch r name.toList

/-! ## The pathspec package (vendored `gitignore.go`)

Faithful embedding of `parsePattern`, `translateGlob`,
`translateBraketExpression`, `regexp.QuoteMeta` and `GitIgnore` from the
vendored `github.com/xanzy/go-pathspec` package.  The `bufio.Scanner`
over the ignore-file bytes is modelled by taking the file as a list of
lines.  The Go `for` loop over glob characters with an explicit index is
modelled with a fuel argument (always called with sufficient fuel). -/

/-- Model of Go `strings.TrimSpace` (drop leading and trailing
whitespace), on character lists. -/
def trimChars (l : List Char) : List Char :=
  ((l.dropWhile Char.isWhitespace).reverse.dropWhile Char.isWhitespace).reverse

/-- Model of Go `strings.Split(s, "/")`, on character lists. -/
def splitSlashAux : List Char → List Char → List String
  | [], acc => [String.mk acc.reverse]
  | '/' :: rest, acc => String.mk acc.reverse :: splitSlashAux rest []
  | c :: rest, acc => splitSlashAux rest (c :: acc)

/-- Model of Go `strings.Split(s, "/")`. -/
def splitSlash (l : List Char) : List String := splitSlashAux l []

/-- Model of Go `strings.HasPrefix`. -/
def strStartsWith (s pre : String) : Bool :=
  List.isPrefixOf pre.toList s.toList

/-- The characters `regexp.QuoteMeta` escapes. -/
def isRegexSpecial (c : Char) : Bool :=
  c == '\\' || c == '.' || c == '+' || c == '*' || c == '?' || c == '(' ||
  c == ')' || c == '|' || c == '[' || c == ']' || c == '\x7b' ||
  c == '\x7d' || c == '^' || c == '$'

/-- `regexp.QuoteMeta` on a single character. -/
def quoteMetaChar (c : Char) : String :=
  if isRegexSpecial c then String.mk ['\\', c] else String.mk [c]

/-- Model of Go `regexp.QuoteMeta`. -/
def quoteMeta (s : List Char) : String :=
  String.join (s.map quoteMetaChar)

/-- A parsed gitignore pattern: the compiled regex string and whether the
pattern was negated (`!`-prefixed). -/
structure GitIgnorePattern where
  Regex : String
  Include : Bool
deriving Repr, DecidableEq

/-- Model of `translateBraketExpression`.  `rest` is the input after the
opening `[`.  Returns the regex text for the class and the number of
characters of `rest` consumed.  (In Go, a glob that *ends* in `[` makes
`glob[*i]` panic; the model returns a space class there, a case none of
the verified properties touch.) -/
def translateBraket (rest : List Char) : String × Nat :=
  let s1 : Nat := if rest.head? == some '!' then 1 else 0
  let s2 : Nat := if rest.get? s1 == some ']' then s1 + 1 else s1
  match (rest.drop s2).findIdx? (fun c => c == ']') with
  | some k =>
      let j := s2 + k
      let contents := (rest.drop s1).take (j - s1)
      ("[" ++ quoteMeta contents ++ "]", j + 1)
  | none =>
      ("[" ++ quoteMeta [rest.headD ' '] ++ "]", 1)

/-- Model of the character loop of `translateGlob`; the `Bool` is the
`escape` flag. -/
def translateGlobAux : Nat → Bool → List Char → String
  | 0, _, _ => ""
  | _ + 1, _, [] => ""
  | fuel + 1, true, c :: rest => quoteMetaChar c ++ translateGlobAux fuel false rest
  | fuel + 1, false, '\\' :: rest => translateGlobAux fuel true rest
  | fuel + 1, false, '*' :: rest => "[^/]*" ++ translateGlobAux fuel false rest
  | fuel + 1, false, '?' :: rest => "[^/]" ++ translateGlobAux fuel false rest
  | fuel + 1, false, '[' :: rest =>
      let (cls, consumed) := translateBraket rest
      cls ++ translateGlobAux fuel false (rest.drop consumed)
  | fuel + 1, false, c :: rest => quoteMetaChar c ++ translateGlobAux fuel false rest

/-- Model of `translateGlob`: translate one glob segment to regex text. -/
def translateGlob (glob : String) : String :=
  translateGlobAux (glob.length + 1) false glob.toList

/-- The body of the segment loop of `parsePattern`.  `isFirst` tracks
whether this is the first segment (Go's `i == 0`); the last segment is
recognized by the recursion reaching a singleton list. -/
def buildSegs : Bool → Bool → List String → String
  | _, _, [] => ""
  | isFirst, needSlash, seg :: rest =>
      if seg == "**" then
        if isFirst && rest.isEmpty then ".+" ++ buildSegs false needSlash rest
        else if isFirst then "(?:.+/)?" ++ buildSegs false false rest
        else if rest.isEmpty then "/.+" ++ buildSegs false needSlash rest
        else "(?:/.+)?" ++ buildSegs false true rest
      else if seg == "*" then
        (if needSlash then "/" else "") ++ "[^/]+" ++ buildSegs false true rest
      else
        (if needSlash then "/" else "") ++ translateGlob seg ++ buildSegs false true rest

/-- Model of `parsePattern`.  (In Go, a pattern that normalizes to an
empty segment list — e.g. `"!"` — panics on `pattern_segs[len-1]`; the
model produces the never-matching regex `"^$"` there.) -/
def parsePattern (pattern : String) : GitIgnorePattern :=
  let l0 := pattern.toList
  let (inc, l1) :=
    match l0 with
    | '!' :: rest => (true, rest)
    | _ => (false, l0)
  let l2 :=
    match l1 with
    | '\\' :: rest => rest
    | _ => l1
  let segs0 := splitSlash l2
  let segs1 :=
    if segs0.head? == some "" then segs0.drop 1
    else if segs0.head? != some "**" then "**" :: segs0
    else segs0
  let segs2 :=
    if segs1.getLast? == some "" then segs1.dropLast ++ ["**"] else segs1
  { Regex := "^" ++ buildSegs true false segs2 ++ "$", Include := inc }

/-- The scanner loop of `GitIgnore`: `ign` is the running `ignore`
variable.  `none` models an error return from `regexp.MatchString`
(which in Go aborts the scan with that error). -/
def gitIgnoreLines (name : String) : List String → Bool → Option Bool
  | [], ign => some ign
  | line :: rest, ign =>
      let pattern := trimChars line.toList
      if pattern.length == 0 || pattern.head? == some '#' then
        gitIgnoreLines name rest ign
      else
        let p := parsePattern (String.mk pattern)
        match matchString p.Regex name with
        | none => none
        | some true => if p.Include then some false else gitIgnoreLines name rest true
        | some false => gitIgnoreLines name rest ign

/-- Model of `pathspec.GitIgnore` (content given as lines). -/
def GitIgnore (content : List String) (name : String) : Option Bool :=
  gitIgnoreLines name content false

/-! ## The secondary ignore grammar (`pathspec.ChefIgnore`) -/

/-- Translate one chefignore glob to a regex, where `*` and `?` may match
any character (per the package's chefignore tests, `test*` matches
`test/foo.test`, so wildcards span path separators). -/
def chefGlobRE : Nat → List Char → RE
  | 0, _ => .eps
  | _ + 1, [] => .eps
  | fuel + 1, '*' :: rest => .seq (.star .anyc) (chefGlobRE fuel rest)
  | fuel + 1, '?' :: rest => .seq .anyc (chefGlobRE fuel rest)
  | fuel + 1, '[' :: rest =>
      match parseClsItems (rest.length + 1)
          (match rest with
           | '!' :: r => r
           | r => r) with
      | some (items, rem) =>
          .seq (.cls (rest.head? == some '!' || rest.head? == some '^') items)
            (chefGlobRE fuel rem)
      | none => .seq (.lit '[') (chefGlobRE fuel rest)
  | fuel + 1, c :: rest => .seq (.lit c) (chefGlobRE fuel rest)

/-- Modelled from the spec: `pathspec.ChefIgnore`, the secondary ignore
grammar, lives in the vendored go-pathspec library whose `chefignore.go`
is not among the sources (only its tests are).  Per spec §4.1 it is "a
simpler glob-with-negation grammar" evaluated line by line like the
primary one: blank lines and `#` comments are skipped, a `!` prefix
negates, and a glob (whose wildcards span path separators) is matched
against the whole path. -/
def ChefIgnore (content : List String) (name : String) : Option Bool :=
  let rec go : List String → Bool → Option Bool
    | [], ign => some ign
    | line :: rest, ign =>
        let pattern := trimChars line.toList
        if pattern.length == 0 || pattern.head? == some '#' then go rest ign
        else
          let (inc, glob) :=
            match pattern with
            | '!' :: r => (true, r)
            | r => (false, r)
          if reMatch (chefGlobRE (glob.length + 1) glob) name.toList then
            if inc then some false else go rest true
          else go rest ign
  go content false

/-! ## `compareCookbooks` and `ignoreThisFile` (cookbook.go)

The candidate's `cg.FileHashes` map and the source hashes `sh` computed
by `getSourceFileHashes` are modelled as association lists from relative
path to digest (digests as `Nat`; only equality is ever used).  The two
retained ignore files are carried as lines.  `getSourceFileHashes`
itself is pure I/O (download + untar) and is represented by the
`sourceHashes` field holding its successful result. -/

/-- Association-list lookup, modelling Go map indexing. -/
def lookupA {α : Type} (k : String) : List (String × α) → Option α
  | [] => none
  | (k', v) :: rest => if k' == k then some v else lookupA k rest

/-- Association-list key removal, modelling Go `delete(m, k)`. -/
def eraseA {α : Type} (k : String) : List (String × α) → List (String × α)
  | [] => []
  | (k', v) :: rest => if k' == k then eraseA k rest else (k', v) :: eraseA k rest

/-- Insertion of a string into a sorted list (ascending). -/
def insertSorted (s : String) : List String → List String
  | [] => [s]
  | t :: rest => if t < s then t :: insertSorted s rest else s :: t :: rest

/-- Model of `sort.StringSlice(l).Sort()`. -/
def sortStrings (l : List String) : List String :=
  l.foldr insertSorted []

/-- The state of one comparison: candidate hashes, source hashes, and the
two retained ignore files (as lines). -/
structure CompareEnv where
  fileHashes : List (String × Nat)
  sourceHashes : List (String × Nat)
  gitIgnoreFile : List String
  chefIgnoreFile : List String

/-- Model of `ChefGuard.ignoreThisFile`.  `none` models an error return
from one of the two pattern matchers. -/
def ignoreThisFile (env : CompareEnv) (file : String)
    (ignoreDefaultFiles : Bool) : Option Bool :=
  if ignoreDefaultFiles &&
      (file == "metadata.rb" || file == "metadata.json" ||
       strStartsWith file "spec/") then
    some true
  else
    match GitIgnore env.gitIgnoreFile file with
    | none => none
    | some true => some true
    | some false =>
        match ChefIgnore env.chefIgnoreFile file with
        | none => none
        | some b => some b

/-- The `range cg.FileHashes` loop of `compareCookbooks`: walks the
candidate entries, accumulating the shrinking source map `sh` and the
`changed` and `missing` (candidate-only) lists.  `none` models the
`StatusBadGateway` return on an `ignoreThisFile` error. -/
def compareLoop (env : CompareEnv) :
    List (String × Nat) → List (String × Nat) → List String → List String →
    Option (List (String × Nat) × List String × List String)
  | [], sh, changed, missing => some (sh, changed, missing)
  | (file, fHash) :: rest, sh, changed, missing =>
      if file == "metadata.json" then
        compareLoop env rest (eraseA file sh) changed missing
      else
        match lookupA file sh with
        | some sHash =>
            if fHash == sHash then
              compareLoop env rest (eraseA file sh) changed missing
            else
              compareLoop env rest sh (changed ++ [file]) missing
        | none =>
            match ignoreThisFile env file true with
            | none => none
            | some true => compareLoop env rest sh changed missing
            | some false => compareLoop env rest sh changed (missing ++ [file])

/-- The `range sh` loop over leftover source files: collect those not
ignored.  `none` models an `ignoreThisFile` error. -/
def leftoverLoop (env : CompareEnv) :
    List (String × Nat) → List String → Option (List String)
  | [], acc => some acc
  | (file, _) :: rest, acc =>
      match ignoreThisFile env file true with
      | none => none
      | some true => leftoverLoop env rest acc
      | some false => leftoverLoop env rest (acc ++ [file])

/-- The classified outcome of `compareCookbooks`, mirroring its
`(int, error)` returns. -/
inductive CompareOutcome where
  | ok                                   -- `0, nil`
  | ignoreErr                            -- `StatusBadGateway` on a matcher error
  | changedErr (files : List String)     -- "The following file(s) are changed"
  | uploadMoreErr (files : List String)  -- "Your upload contains more files..."
  | sourceMoreErr (files : List String)  -- "The source cookbook contains more files..."
deriving Repr, DecidableEq

/-- The HTTP status code of a comparison outcome. -/
def CompareOutcome.code : CompareOutcome → Nat
  | .ok => 0
  | .ignoreErr => 502
  | .changedErr _ => 412
  | .uploadMoreErr _ => 412
  | .sourceMoreErr _ => 412

/-- Whether a comparison outcome carries an error. -/
def CompareOutcome.isErrFree : CompareOutcome → Bool
  | .ok => true
  | _ => false

/-- Model of `ChefGuard.compareCookbooks` (after a successful source
download has produced `env.sourceHashes`). -/
def compareCookbooks (env : CompareEnv) : CompareOutcome :=
  match compareLoop env env.fileHashes env.sourceHashes [] [] with
  | none => .ignoreErr
  | some (sh, changed, missing) =>
      if changed.length > 0 then .changedErr (sortStrings changed)
      else if missing.length > 0 then .uploadMoreErr (sortStrings missing)
      else if sh.length > 0 then
        match leftoverLoop env sh [] with
        | none => .ignoreErr
        | some missing2 =>
            if missing2.length > 0 then .sourceMoreErr (sortStrings missing2)
            else .ok
      else .ok

/-! ## `cookbookFrozen`, `checkCookbookFrozen`, `checkDependencies`

The Chef server client's `GetCookbookVersion(name, version)` (returning
`cb, found, err`) is modelled by an oracle `String → String → CBLookup`. -/

/-- The outcome of `chefClient.GetCookbookVersion`. -/
inductive CBLookup where
  | lookupErr (msg : String)    -- `err != nil`
  | notFound                    -- `found == false`
  | found (frozen : Bool)       -- the version exists, with its frozen flag
deriving Repr, DecidableEq

/-- Does a lookup outcome represent a client error? -/
def CBLookup.isErr : CBLookup → Bool
  | .lookupErr _ => true
  | _ => false

/-- An oracle standing for the upstream Chef server. -/
def ChefOracle : Type := String → String → CBLookup

/-- Model of `ChefGuard.cookbookFrozen`: `(frozen, error)`. -/
def cookbookFrozen (gcv : ChefOracle) (name version : String) :
    Bool × Option String :=
  match gcv name version with
  | .lookupErr e =>
      (true, some ("Failed to get info for cookbook " ++ name ++ " version " ++
        version ++ ": " ++ e))
  | .notFound => (false, none)
  | .found frozen => (frozen, none)

/-- The frozen-overwrite refusal text of `checkCookbookFrozen`. -/
def frozenRefusalMsg : String :=
  "The cookbook you are trying to upload is frozen!"

/-- Model of `ChefGuard.checkCookbookFrozen`: `(status, error)`. -/
def checkCookbookFrozen (gcv : ChefOracle) (name version : String) :
    Nat × Option String :=
  match cookbookFrozen gcv name version with
  | (_, some e) => (502, some e)
  | (frozen, none) =>
      if frozen then (412, some frozenRefusalMsg) else (0, none)

/-- The failure entry for an unfrozen dependency. -/
def needsFrozenMsg (name version : String) : String :=
  name ++ " version " ++ version ++ " needs to be frozen"

/-- The failure entry for a constraint that is not `= x.x.x`. -/
def badConstraintMsg (name version : String) : String :=
  "constraint " ++ "'" ++ String.mk (version.toList.drop 3) ++ "'" ++ " for " ++
    name ++ " needs to be more specific (= x.x.x)"

/-- The inner `range versions` loop of `checkDependencies`; accumulates
failure entries, or short-circuits with `.error` when `cookbookFrozen`
reports a lookup error. -/
def depVersionsLoop (gcv : ChefOracle) (vc : Bool) (name : String) :
    List String → List String → Except String (List String)
  | [], errors => .ok errors
  | version :: rest, errors =>
      if version == "0.0.0" || version == "BAD>= 0.0.0" then
        depVersionsLoop gcv vc name rest errors
      else if strStartsWith version "BAD" then
        depVersionsLoop gcv vc name rest
          (if vc then errors ++ [badConstraintMsg name version] else errors)
      else
        match cookbookFrozen gcv name version with
        | (_, some e) => .error e
        | (frozen, none) =>
            depVersionsLoop gcv vc name rest
              (if frozen then errors else errors ++ [needsFrozenMsg name version])

/-- The outer `range constraints` loop of `checkDependencies`. -/
def depLoop (gcv : ChefOracle) (vc : Bool) :
    List (String × List String) → List String → Except String (List String)
  | [], errors => .ok errors
  | (name, versions) :: rest, errors =>
      match depVersionsLoop gcv vc name versions errors with
      | .error e => .error e
      | .ok errors' => depLoop gcv vc rest errors'

/-- Model of `ChefGuard.checkDependencies`: `(status, error)`.  The
constraint map is an association list `name ↦ versions`. -/
def checkDependencies (gcv : ChefOracle)
    (constraints : List (String × List String)) (vc : Bool) :
    Nat × Option String :=
  match depLoop gcv vc constraints [] with
  | .error e => (502, some e)
  | .ok errors =>
      if errors.length > 0 then
        (412, some (" - " ++ String.intercalate "\n - " errors))
      else (0, none)

/-- The failure entries a single constraint version contributes when its
lookup does not error (the closed form of the loop body). -/
def depEntries (gcv : ChefOracle) (vc : Bool) (name version : String) :
    List String :=
  if version == "0.0.0" || version == "BAD>= 0.0.0" then []
  else if strStartsWith version "BAD" then
    (if vc then [badConstraintMsg name version] else [])
  else if (cookbookFrozen gcv name version).1 then []
  else [needsFrozenMsg name version]

/-- All failure entries of a constraint set, in list order. -/
def depFailures (gcv : ChefOracle) (vc : Bool)
    (constraints : List (String × List String)) : List String :=
  constraints.flatMap fun nv => nv.2.flatMap fun v => depEntries gcv vc nv.1 v

/-! ## `parseCookbookVersions` (the constraint-syntax regex) -/

/-- Consume one or more leading decimal digits; `none` when there is no
leading digit (models one `\d+` of the constraint regex). -/
def chompDigits (l : List Char) : Option (List Char) :=
  match l.takeWhile Char.isDigit with
  | [] => none
  | _ => some (l.dropWhile Char.isDigit)

/-- Does the character list match `\d+\.\d+\.\d+` exactly? -/
def isSemverChars (l : List Char) : Bool :=
  match chompDigits l with
  | none => false
  | some rest =>
      match rest with
      | '.' :: r2 =>
          match chompDigits r2 with
          | none => false
          | some rest2 =>
              match rest2 with
              | '.' :: r3 => chompDigits r3 == some []
              | _ => false
      | _ => false

/-- Model of `regexp.FindStringSubmatch` for the anchored constraint
pattern: the optional `"= "` prefix followed by the captured
`\d+\.\d+\.\d+`.  Returns the capture group. -/
def versionSubmatch (s : String) : Option String :=
  match s.toList with
  | '=' :: ' ' :: rest =>
      if isSemverChars rest then some (String.mk rest) else none
  | l => if isSemverChars l then some s else none

/-- Model of `parseCookbookVersions`: each well-formed constraint maps to
its extracted version, every other constraint to `"BAD" + constraint`. -/
def parseCookbookVersions (constraints : List (String × String)) :
    List (String × List String) :=
  constraints.map fun nc =>
    match versionSubmatch nc.2 with
    | some version => (nc.1, [version])
    | none => (nc.1, ["BAD" ++ nc.2])

/-- The spec's notion of a well-formed component list: three nonempty
all-digit runs separated by dots. -/
def ThreeComponents (l : List Char) : Prop :=
  ∃ a b c : List Char, a ≠ [] ∧ b ≠ [] ∧ c ≠ [] ∧
    (∀ y ∈ a, y.isDigit = true) ∧ (∀ y ∈ b, y.isDigit = true) ∧
    (∀ y ∈ c, y.isDigit = true) ∧
    l = a ++ ['.'] ++ b ++ ['.'] ++ c

/-- The spec's notion of a well-formed constraint string: three
dot-separated numeric components, optionally prefixed by `"= "`. -/
def SpecWellFormed (s : String) : Prop :=
  ThreeComponents s.toList ∨
    ∃ rest, s.toList = '=' :: ' ' :: rest ∧ ThreeComponents rest

/-! ## `searchSupermarket` / `searchCommunityCookbooks` (source resolver)

The supermarket `/universe` endpoint is modelled by the already-parsed
result map `name ↦ version ↦ location_path` (with the fetch itself an
`Except`, standing for the several `StatusBadGateway` returns), the
`communityDownloadURL` round-trip and `searchGitForCookbook` by oracles.
To state the claim that the fork search is (or is not) consulted, the
resolver also returns the list of external searches it performed, in
order. -/

/-- The fields of a resolved `SourceCookbook` that the claims use. -/
structure SourceCookbook where
  artifact : Bool
  priv : Bool          -- the `private` field
  tagged : Bool
  gitConfig : String
  locationType : String
  downloadURL : String
deriving Repr, DecidableEq

/-- The external searches the resolver can perform. -/
inductive SearchEv where
  | supermarketQuery (server : String)
  | forkSearch (gitConfigs : List String) (tagsOnly : Bool)
deriving Repr, DecidableEq

/-- The `(sc, errCode, err)` triple returned by the search functions. -/
structure SearchRet where
  sc : Option SourceCookbook
  code : Nat
  err : Option String
deriving Repr, DecidableEq

/-- The parsed `/universe` map: cookbook name to versions to
`location_path`. -/
def UniverseMap : Type := List (String × List (String × String))

/-- Oracle for `communityDownloadURL location_path name version`. -/
def DownloadOracle : Type := String → String → String → Except String String

/-- Oracle for `searchGitForCookbook gitConfig name tag tagsOnly`,
returning `none` for no hit or `(link, tagged)` for a hit. -/
def GitOracle : Type :=
  String → String → String → Bool → Except String (Option (String × Bool))

/-- Model of `searchSupermarket`: look the name and version up in the
universe; code 1 distinguishes "name known, version unknown". -/
def searchSupermarket (uniFetch : Except String UniverseMap)
    (dl : DownloadOracle) (name version : String) : SearchRet :=
  match uniFetch with
  | .error e => ⟨none, 502, some e⟩
  | .ok results =>
      match lookupA name results with
      | some cb =>
          match lookupA version cb with
          | some locationPath =>
              match dl locationPath name version with
              | .error e => ⟨none, 502, some e⟩
              | .ok u =>
                  ⟨some { artifact := true, priv := false, tagged := false,
                          gitConfig := "", locationType := "supermarket",
                          downloadURL := u }, 0, none⟩
          | none => ⟨none, 1, none⟩
      | none => ⟨none, 0, none⟩

/-- Model of `searchGit`: try each git config in order; the first hit
wins. -/
def searchGit (sgfc : GitOracle) (name version : String) (tagsOnly : Bool) :
    List String → Except String (Option SourceCookbook)
  | [] => .ok none
  | gitConfig :: rest =>
      let gc := String.mk (trimChars gitConfig.toList)
      match sgfc gc name ("v" ++ version) tagsOnly with
      | .error e => .error e
      | .ok (some lt) =>
          .ok (some { artifact := false, priv := false, tagged := lt.2,
                      gitConfig := gc, locationType := "git",
                      downloadURL := lt.1 })
      | .ok none => searchGit sgfc name version tagsOnly rest

/-- The client-fault text for a known community cookbook at an unknown
version. -/
def nonExistingVersionMsg (name version : String) : String :=
  "You are trying to upload " ++ "'" ++ name ++ "'" ++ " version " ++ "'" ++
    version ++ "'" ++ " which is a non-existing version of a community cookbook!"

/-- Model of Go `strings.Split(s, ",")`. -/
def splitCommaAux : List Char → List Char → List String
  | [], acc => [String.mk acc.reverse]
  | ',' :: rest, acc => String.mk acc.reverse :: splitCommaAux rest []
  | c :: rest, acc => splitCommaAux rest (c :: acc)

/-- Model of Go `strings.Split(s, ",")`. -/
def splitComma (s : String) : List String := splitCommaAux s.toList []

/-- Model of `searchCommunityCookbooks`, also reporting the searches
performed.  `forks` is `cfg.Community.Forks`, `supermarket` is
`cfg.Community.Supermarket`. -/
def searchCommunityCookbooks (supermarket forks : String)
    (uniFetch : Except String UniverseMap) (dl : DownloadOracle)
    (sgfc : GitOracle) (name version : String) : SearchRet × List SearchEv :=
  let evs := [SearchEv.supermarketQuery supermarket]
  let r := searchSupermarket uniFetch dl name version
  match r.err with
  | some e => (⟨none, r.code, some e⟩, evs)
  | none =>
      match r.sc with
      | some sc => (⟨some { sc with priv := false }, 0, none⟩, evs)
      | none =>
          if r.code == 1 then
            if forks != "" then
              let cfgs := splitComma forks
              let evs' := evs ++ [SearchEv.forkSearch cfgs true]
              match searchGit sgfc name version true cfgs with
              | .error e => (⟨none, 502, some e⟩, evs')
              | .ok (some sc) => (⟨some { sc with priv := false }, 0, none⟩, evs')
              | .ok none =>
                  (⟨none, 412, some (nonExistingVersionMsg name version)⟩, evs')
            else (⟨none, 412, some (nonExistingVersionMsg name version)⟩, evs)
          else (⟨none, 0, none⟩, evs)

/-! ## `executeChecks` / `continueAfterFailedCheck` (checks.go)

`runFoodcritic` and `runRubocop` spawn external tools; their outcomes
are modelled as oracles: `pass` for a clean run (`0, nil`), `failed` for
a lint failure (`StatusPreconditionFailed`), and `execErr` for a failure
to execute the tool (`StatusInternalServerError`). -/

/-- The outcome of running one external check tool. -/
inductive CheckRes where
  | pass
  | failed (msg : String)
  | execErr (msg : String)
deriving Repr, DecidableEq

/-- The inputs of `executeChecks`: tool configuration, tool outcomes, and
the policy inputs of `continueAfterFailedCheck`. -/
structure ChecksCtx where
  foodcriticPath : String     -- cfg.Tests.Foodcritic ("" means unconfigured)
  rubocopPath : String        -- cfg.Tests.Rubocop
  foodcriticRes : CheckRes
  rubocopRes : CheckRes
  mode : String               -- getEffectiveConfig("Mode", cg.ChefOrg)
  forcedUpload : Bool         -- cg.ForcedUpload

/-- Model of `ChefGuard.continueAfterFailedCheck`. -/
def continueAfterFailedCheck (ctx : ChecksCtx) : Bool :=
  ctx.mode == "permissive" && ctx.forcedUpload

/-- One check phase of `executeChecks`: `some r` when the phase returns
`r` to the caller, `none` when execution continues past the check. -/
def checkPhase (ctx : ChecksCtx) (res : CheckRes) : Option (Nat × Option String) :=
  match res with
  | .pass => none
  | .failed m =>
      if continueAfterFailedCheck ctx then none else some (412, some m)
  | .execErr m => some (500, some m)

/-- The rubocop half of `executeChecks`. -/
def rubocopPhase (ctx : ChecksCtx) : Nat × Option String :=
  match (if ctx.rubocopPath == "" then none else checkPhase ctx ctx.rubocopRes) with
  | some r => r
  | none => (0, none)

/-- Model of `ChefGuard.executeChecks`: foodcritic first, then rubocop. -/
def executeChecks (ctx : ChecksCtx) : Nat × Option String :=
  match (if ctx.foodcriticPath == "" then none else checkPhase ctx ctx.foodcriticRes) with
  | some r => r
  | none => rubocopPhase ctx

/-! ## `processCookbook` (chef-guard.go upload handler)

The handler's stages after the frozen check — `processCookbookFiles`
(archive build), `validateCookbookStatus` (source resolution, lint
checks and content comparison) and `tagAndPublishCookbook` — are
represented by oracles for their outcomes; the model records which
stages were entered, in order, so that "fails before any archive build
or resolution" is a statement about the recorded trace. -/

/-- The stages of the upload handler that the model records. -/
inductive Stage where
  | frozenCheck        -- cg.checkCookbookFrozen()
  | archiveBuild       -- cg.processCookbookFiles()
  | validateStatus     -- cg.validateCookbookStatus() (resolve + compare)
  | tagPublish         -- cg.tagAndPublishCookbook()
  | gitCommitSync      -- go cg.syncedGitUpdate(...)
  | proxyPass          -- p.ServeHTTP(w, r)
deriving Repr, DecidableEq

/-- The handler's externally visible response. -/
inductive Response where
  | passthrough              -- the request is forwarded upstream
  | errorResp (code : Nat)   -- errorHandler(w, ..., code)
deriving Repr, DecidableEq

/-- The inputs of one `processCookbook` invocation. -/
structure UploadCtx where
  mode : String               -- getEffectiveConfig("Mode", org)
  commitChanges : Bool        -- getEffectiveConfig("CommitChanges", org)
  method : String             -- r.Method
  ridleyUA : Bool             -- the User-Agent contains "Ridley"
  bodyOK : Bool               -- dumpBody + json.Unmarshal succeed
  gcv : ChefOracle            -- the upstream server, for cookbookFrozen
  cbName : String             -- cg.Cookbook.Name
  cbVersion : String          -- cg.Cookbook.Version
  cbFrozenFlag : Bool         -- cg.Cookbook.Frozen (the upload's own flag)
  buildOK : Bool              -- processCookbookFiles() outcome
  validateRes : Nat × Option String    -- validateCookbookStatus() outcome
  tagPublishRes : Nat × Option String  -- tagAndPublishCookbook() outcome

/-- The common tail of the handler: the optional audit-commit goroutine,
then the proxy pass. -/
def finishUp (ctx : UploadCtx) (steps : List Stage) : Response × List Stage :=
  (.passthrough,
    steps ++ (if ctx.commitChanges then [Stage.gitCommitSync] else []) ++
      [Stage.proxyPass])

/-- Model of the `processCookbook` handler. -/
def processCookbook (ctx : UploadCtx) : Response × List Stage :=
  if ctx.mode == "silent" && ctx.commitChanges == false then
    (.passthrough, [Stage.proxyPass])
  else if ctx.method != "DELETE" then
    if !ctx.bodyOK then (.errorResp 502, [])
    else if ctx.mode != "silent" then
      match checkCookbookFrozen ctx.gcv ctx.cbName ctx.cbVersion with
      | (code, some _) =>
          (.errorResp (if ctx.ridleyUA then 409 else code), [Stage.frozenCheck])
      | (_, none) =>
          if ctx.cbFrozenFlag then
            if !ctx.buildOK then
              (.errorResp 502, [Stage.frozenCheck, Stage.archiveBuild])
            else
              match ctx.validateRes with
              | (code, some _) =>
                  (.errorResp code,
                    [Stage.frozenCheck, Stage.archiveBuild, Stage.validateStatus])
              | (_, none) =>
                  match ctx.tagPublishRes with
                  | (code, some _) =>
                      (.errorResp code,
                        [Stage.frozenCheck, Stage.archiveBuild,
                         Stage.validateStatus, Stage.tagPublish])
                  | (_, none) =>
                      finishUp ctx
                        [Stage.frozenCheck, Stage.archiveBuild,
                         Stage.validateStatus, Stage.tagPublish]
          else finishUp ctx [Stage.frozenCheck]
    else finishUp ctx []
  else finishUp ctx []

/-! ## Helper lemmas about the association-list operations -/

theorem lookupA_eraseA {α : Type} (k f : String) (l : List (String × α)) :
    lookupA f (eraseA k l) = if f = k then none else lookupA f l := by
  induction l with
  | nil => simp [eraseA, lookupA]
  | cons p rest ih =>
      obtain ⟨k', v⟩ := p
      by_cases hk : k' = k
      · subst hk
        simp only [eraseA, beq_self_eq_true, if_true, ih]
        by_cases hf : f = k'
        · simp [hf, lookupA]
        · simp [hf, lookupA, Ne.symm hf]
      · simp only [eraseA, beq_iff_eq, hk, if_false, lookupA]
        by_cases hf : k' = f
        · subst hf
          simp [lookupA, hk]
        · simp [lookupA, hf, ih]

theorem lookupA_eq_none_of_not_mem {α : Type} (f : String)
    (l : List (String × α)) (h : f ∉ l.map Prod.fst) : lookupA f l = none := by
  induction l with
  | nil => rfl
  | cons p rest ih =>
      simp only [List.map_cons, List.mem_cons] at h
      push_neg at h
      simp only [lookupA, beq_iff_eq, Ne.symm h.1, if_false]
      exact ih h.2

theorem lookupA_of_mem_nodup {α : Type} {l : List (String × α)} {p : String × α}
    (hmem : p ∈ l) (hnodup : (l.map Prod.fst).Nodup) :
    lookupA p.1 l = some p.2 := by
  induction l with
  | nil => cases hmem
  | cons q rest ih =>
      simp only [List.map_cons, List.nodup_cons] at hnodup
      rcases List.mem_cons.mp hmem with h | h
      · subst h
        simp [lookupA]
      · have hne : q.1 ≠ p.1 := by
          intro he
          exact hnodup.1 (he ▸ List.mem_map_of_mem Prod.fst h)
        simp only [lookupA, beq_iff_eq, hne, if_false]
        exact ih h hnodup.2

theorem lookupA_isSome_of_mem {α : Type} {l : List (String × α)}
    {p : String × α} (hmem : p ∈ l) : (lookupA p.1 l).isSome := by
  induction l with
  | nil => cases hmem
  | cons q rest ih =>
      rcases List.mem_cons.mp hmem with h | h
      · subst h; simp [lookupA]
      · by_cases he : q.1 = p.1
        · simp [lookupA, he]
        · simp only [lookupA, beq_iff_eq, he, if_false]
          exact ih h

theorem mem_eraseA {α : Type} {k : String} {l : List (String × α)}
    {p : String × α} (h : p ∈ eraseA k l) : p ∈ l := by
  induction l with
  | nil => cases h
  | cons q rest ih =>
      by_cases hq : q.1 = k
      · obtain ⟨k', v⟩ := q
        simp only [eraseA, beq_iff_eq] at h
        rw [if_pos hq] at h
        exact List.mem_cons_of_mem _ (ih h)
      · obtain ⟨k', v⟩ := q
        simp only [eraseA, beq_iff_eq] at h
        rw [if_neg hq] at h
        rcases List.mem_cons.mp h with h | h
        · exact h ▸ List.mem_cons_self _ _
        · exact List.mem_cons_of_mem _ (ih h)

/-- Erase all the given keys, left to right (the shape the candidate loop
leaves the source map in). -/
def eraseKeys {α : Type} (ks : List String) (l : List (String × α)) :
    List (String × α) :=
  ks.foldl (fun acc k => eraseA k acc) l

theorem eraseKeys_cons {α : Type} (k : String) (ks : List String)
    (l : List (String × α)) :
    eraseKeys (k :: ks) l = eraseKeys ks (eraseA k l) := rfl

theorem lookupA_eraseKeys {α : Type} (ks : List String) (f : String)
    (l : List (String × α)) :
    lookupA f (eraseKeys ks l) = if f ∈ ks then none else lookupA f l := by
  induction ks generalizing l with
  | nil => simp [eraseKeys]
  | cons k rest ih =>
      rw [eraseKeys_cons, ih, lookupA_eraseA]
      by_cases hf : f ∈ rest
      · simp [hf]
      · by_cases hk : f = k <;> simp [hf, hk]

theorem mem_eraseKeys {α : Type} {ks : List String} {l : List (String × α)}
    {p : String × α} (h : p ∈ eraseKeys ks l) : p ∈ l := by
  induction ks generalizing l with
  | nil => exact h
  | cons k rest ih => exact mem_eraseA (ih (eraseKeys_cons k rest l ▸ h))

theorem eq_nil_of_lookupA_none {α : Type} (l : List (String × α))
    (h : ∀ f, lookupA f l = none) : l = [] := by
  cases l with
  | nil => rfl
  | cons p rest =>
      have := h p.1
      simp [lookupA] at this

/-! ## Lemmas about the comparison loops -/

/-- When every non-manifest candidate entry finds its own hash in `sh`,
the candidate loop only erases keys: no `changed` or `missing` entry is
produced. -/
theorem compareLoop_all_matched (env : CompareEnv) :
    ∀ (cand : List (String × Nat)) (sh : List (String × Nat))
      (c m : List String),
      (cand.map Prod.fst).Nodup →
      (∀ p ∈ cand, p.1 ≠ "metadata.json" → lookupA p.1 sh = some p.2) →
      compareLoop env cand sh c m =
        some (eraseKeys (cand.map Prod.fst) sh, c, m) := by
  intro cand
  induction cand with
  | nil => intro sh c m _ _; rfl
  | cons p rest ih =>
      intro sh c m hnodup hmatch
      obtain ⟨file, fHash⟩ := p
      simp only [List.map_cons, List.nodup_cons] at hnodup
      have hrest : ∀ q ∈ rest, q.1 ≠ "metadata.json" →
          lookupA q.1 (eraseA file sh) = some q.2 := by
        intro q hq hqm
        have hne : q.1 ≠ file := by
          intro he
          exact hnodup.1 (he ▸ List.mem_map_of_mem Prod.fst hq)
        rw [lookupA_eraseA, if_neg hne]
        exact hmatch q (List.mem_cons_of_mem _ hq) hqm
      by_cases hmeta : file = "metadata.json"
      · subst hmeta
        simp only [compareLoop, beq_self_eq_true, if_true]
        have hrest' : ∀ q ∈ rest, q.1 ≠ "metadata.json" →
            lookupA q.1 (eraseA "metadata.json" sh) = some q.2 := by
          intro q hq hqm
          rw [lookupA_eraseA, if_neg hqm]
          exact hmatch q (List.mem_cons_of_mem _ hq) hqm
        rw [ih (eraseA "metadata.json" sh) c m hnodup.2 hrest']
        rfl
      · have hfound : lookupA file sh = some fHash :=
          hmatch ⟨file, fHash⟩ (List.mem_cons_self _ _) hmeta
        simp only [compareLoop, beq_iff_eq, hmeta, if_false, hfound,
          beq_self_eq_true, if_true]
        rw [ih (eraseA file sh) c m hnodup.2 hrest]
        rfl

/-- The candidate loop only ever appends to its `changed` and `missing`
accumulators. -/
theorem compareLoop_acc_mono (env : CompareEnv) :
    ∀ (cand sh : List (String × Nat)) (c m : List String)
      (r : List (String × Nat) × List String × List String),
      compareLoop env cand sh c m = some r →
      ∃ tc tm, r.2.1 = c ++ tc ∧ r.2.2 = m ++ tm := by
  intro cand
  induction cand with
  | nil =>
      intro sh c m r h
      simp only [compareLoop, Option.some.injEq] at h
      exact ⟨[], [], by simp [← h], by simp [← h]⟩
  | cons p rest ih =>
      intro sh c m r h
      obtain ⟨file, fHash⟩ := p
      simp only [compareLoop] at h
      split at h
      · exact ih _ _ _ _ h
      · split at h
        · split at h
          · exact ih _ _ _ _ h
          · obtain ⟨tc, tm, h1, h2⟩ := ih _ _ _ _ h
            exact ⟨file :: tc, tm, by simp [h1], h2⟩
        · split at h
          · cases h
          · exact ih _ _ _ _ h
          · obtain ⟨tc, tm, h1, h2⟩ := ih _ _ _ _ h
            exact ⟨tc, file :: tm, h1, by simp [h2]⟩

/-- A candidate entry whose hash differs from the source's always lands
in the `changed` output (keys assumed unique, as for a Go map). -/
theorem compareLoop_changed_mem (env : CompareEnv) :
    ∀ (cand sh : List (String × Nat)) (c m : List String)
      (r : List (String × Nat) × List String × List String)
      (p : String × Nat) (h' : Nat),
      (cand.map Prod.fst).Nodup →
      compareLoop env cand sh c m = some r →
      p ∈ cand → p.1 ≠ "metadata.json" → lookupA p.1 sh = some h' →
      p.2 ≠ h' → p.1 ∈ r.2.1 := by
  intro cand
  induction cand with
  | nil => intro sh c m r p h' _ _ hmem; cases hmem
  | cons q rest ih =>
      intro sh c m r p h' hnodup hloop hmem hpmeta hlk hne
      obtain ⟨file, fHash⟩ := q
      simp only [List.map_cons, List.nodup_cons] at hnodup
      rcases List.mem_cons.mp hmem with hp | hp
      · rw [show p = (file, fHash) from hp] at hpmeta hlk hne ⊢
        simp only at hpmeta hlk hne ⊢
        simp only [compareLoop, beq_iff_eq, hpmeta, if_false, hlk] at hloop
        rw [if_neg (by simpa using hne)] at hloop
        obtain ⟨tc, tm, h1, _⟩ := compareLoop_acc_mono env _ _ _ _ _ hloop
        rw [h1]
        simp
      · have hne_key : p.1 ≠ file := by
          intro he
          exact hnodup.1 (he ▸ List.mem_map_of_mem Prod.fst hp)
        have hlk_pres : lookupA p.1 (eraseA file sh) = some h' := by
          rw [lookupA_eraseA, if_neg hne_key]
          exact hlk
        simp only [compareLoop] at hloop
        split at hloop
        · exact ih _ _ _ _ p h' hnodup.2 hloop hp hpmeta hlk_pres hne
        · split at hloop
          · split at hloop
            · exact ih _ _ _ _ p h' hnodup.2 hloop hp hpmeta hlk_pres hne
            · exact ih _ _ _ _ p h' hnodup.2 hloop hp hpmeta hlk hne
          · split at hloop
            · cases hloop
            · exact ih _ _ _ _ p h' hnodup.2 hloop hp hpmeta hlk hne
            · exact ih _ _ _ _ p h' hnodup.2 hloop hp hpmeta hlk hne

/-- The manifest path is ignored by the default-file rule. -/
theorem ignoreThisFile_metadata (env : CompareEnv) :
    ignoreThisFile env "metadata.json" true = some true := by
  simp [ignoreThisFile]

/-- Leftover source entries that are all the manifest path contribute no
missing file. -/
theorem leftoverLoop_metadata (env : CompareEnv) :
    ∀ (sh : List (String × Nat)) (acc : List String),
      (∀ p ∈ sh, p.1 = "metadata.json") →
      leftoverLoop env sh acc = some acc := by
  intro sh
  induction sh with
  | nil => intro acc _; rfl
  | cons p rest ih =>
      intro acc hall
      obtain ⟨file, v⟩ := p
      have : file = "metadata.json" := hall ⟨file, v⟩ (List.mem_cons_self _ _)
      subst this
      simp only [leftoverLoop, ignoreThisFile_metadata]
      exact ih acc (fun q hq => hall q (List.mem_cons_of_mem _ hq))

/-- After the candidate loop under the agreement hypotheses, the residual
source map only holds the manifest path. -/
theorem residual_only_metadata (env : CompareEnv)
    (hagree : ∀ f, f ≠ "metadata.json" →
      lookupA f env.fileHashes = lookupA f env.sourceHashes) :
    ∀ p ∈ eraseKeys (env.fileHashes.map Prod.fst) env.sourceHashes,
      p.1 = "metadata.json" := by
  intro p hp
  by_contra hne
  have hsrc : p ∈ env.sourceHashes := mem_eraseKeys hp
  have hsome : (lookupA p.1 (eraseKeys (env.fileHashes.map Prod.fst)
      env.sourceHashes)).isSome := lookupA_isSome_of_mem hp
  rw [lookupA_eraseKeys] at hsome
  by_cases hmem : p.1 ∈ env.fileHashes.map Prod.fst
  · simp [hmem] at hsome
  · have hnone : lookupA p.1 env.fileHashes = none :=
      lookupA_eq_none_of_not_mem _ _ hmem
    have := hagree p.1 hne
    rw [hnone] at this
    have hsrcSome : (lookupA p.1 env.sourceHashes).isSome :=
      lookupA_isSome_of_mem hsrc
    rw [← this] at hsrcSome
    cases hsrcSome

/-- C1: For every pair of file-hash maps in which the candidate map and
the source map contain exactly the same relative paths with identical
hashes, `compareCookbooks` reports no changed, extra, or missing files
and the comparison passes (status code 0 and no error). -/
theorem C1_compare_identical_passes (env : CompareEnv)
    (hnodup : (env.fileHashes.map Prod.fst).Nodup)
    (hagree : ∀ f, lookupA f env.fileHashes = lookupA f env.sourceHashes) :
    compareCookbooks env = .ok ∧ (compareCookbooks env).code = 0 ∧
      (compareCookbooks env).isErrFree = true := by
  have hmatch : ∀ p ∈ env.fileHashes, p.1 ≠ "metadata.json" →
      lookupA p.1 env.sourceHashes = some p.2 := by
    intro p hp _
    rw [← hagree]
    exact lookupA_of_mem_nodup hp hnodup
  have hloop := compareLoop_all_matched env env.fileHashes env.sourceHashes
    [] [] hnodup hmatch
  have hempty : eraseKeys (env.fileHashes.map Prod.fst) env.sourceHashes = [] := by
    apply eq_nil_of_lookupA_none
    intro f
    rw [lookupA_eraseKeys]
    by_cases hf : f ∈ env.fileHashes.map Prod.fst
    · simp [hf]
    · rw [if_neg hf, ← hagree]
      exact lookupA_eq_none_of_not_mem _ _ hf
  have : compareCookbooks env = .ok := by
    rw [compareCookbooks, hloop, hempty]
    rfl
  exact ⟨this, by rw [this]; rfl, by rw [this]; rfl⟩

/-- Witness for C1 at a concrete environment. -/
theorem C1_witness :
    compareCookbooks
      { fileHashes := [("recipes/default.rb", 7), ("metadata.rb", 3)],
        sourceHashes := [("recipes/default.rb", 7), ("metadata.rb", 3)],
        gitIgnoreFile := [], chefIgnoreFile := [] } = .ok :=
  (C1_compare_identical_passes _ (by decide) (fun _ => rfl)).1

/-- C4: The path `metadata.json` is never reported as changed, extra, or
missing by `compareCookbooks`: for every candidate whose file set is
byte-identical to the source's except that `metadata.json` differs (or
is present on only one side), the comparison passes. -/
theorem C4_metadata_always_excluded (env : CompareEnv)
    (hnodup : (env.fileHashes.map Prod.fst).Nodup)
    (hagree : ∀ f, f ≠ "metadata.json" →
      lookupA f env.fileHashes = lookupA f env.sourceHashes) :
    compareCookbooks env = .ok := by
  have hmatch : ∀ p ∈ env.fileHashes, p.1 ≠ "metadata.json" →
      lookupA p.1 env.sourceHashes = some p.2 := by
    intro p hp hm
    rw [← hagree p.1 hm]
    exact lookupA_of_mem_nodup hp hnodup
  have hloop := compareLoop_all_matched env env.fileHashes env.sourceHashes
    [] [] hnodup hmatch
  have hresid := residual_only_metadata env hagree
  rw [compareCookbooks, hloop]
  simp only
  by_cases hlen : (eraseKeys (env.fileHashes.map Prod.fst) env.sourceHashes).length > 0
  · rw [if_neg (by simp), if_neg (by simp), if_pos hlen,
      leftoverLoop_metadata env _ [] hresid]
    rfl
  · rw [if_neg (by simp), if_neg (by simp), if_neg hlen]

/-- C3: `compareCookbooks` reports failure classes in strict priority
order: a changed file always yields the changed-files error regardless
of extra or missing files; unignored candidate-only files are reported
only when no file is changed; unignored source-only files are reported
only when no file is changed and there are no candidate-only files. -/
theorem C3_compare_priority (env : CompareEnv)
    (sh1 : List (String × Nat)) (changed extra : List String)
    (hloop : compareLoop env env.fileHashes env.sourceHashes [] [] =
      some (sh1, changed, extra)) :
    (changed ≠ [] → compareCookbooks env = .changedErr (sortStrings changed)) ∧
    (changed = [] → extra ≠ [] →
      compareCookbooks env = .uploadMoreErr (sortStrings extra)) ∧
    (∀ fs, compareCookbooks env = .uploadMoreErr fs → changed = []) ∧
    (∀ fs, compareCookbooks env = .sourceMoreErr fs →
      changed = [] ∧ extra = []) ∧
    (∀ p h', p ∈ env.fileHashes → (env.fileHashes.map Prod.fst).Nodup →
      p.1 ≠ "metadata.json" → lookupA p.1 env.sourceHashes = some h' →
      p.2 ≠ h' → p.1 ∈ changed) := by
  have hcc : compareCookbooks env =
      (if changed.length > 0 then CompareOutcome.changedErr (sortStrings changed)
       else if extra.length > 0 then CompareOutcome.uploadMoreErr (sortStrings extra)
       else if sh1.length > 0 then
         match leftoverLoop env sh1 [] with
         | none => CompareOutcome.ignoreErr
         | some missing2 =>
             if missing2.length > 0 then
               CompareOutcome.sourceMoreErr (sortStrings missing2)
             else CompareOutcome.ok
       else CompareOutcome.ok) := by
    simp only [compareCookbooks, hloop]
  refine ⟨?_, ?_, ?_, ?_, ?_⟩
  · intro hne
    rw [hcc, if_pos (by simpa [List.length_pos] using hne)]
  · intro he hne
    rw [hcc, if_neg (by simp [he]), if_pos (by simpa [List.length_pos] using hne)]
  · intro fs heq
    by_contra hne
    rw [hcc, if_pos (by simpa [List.length_pos] using hne)] at heq
    cases heq
  · intro fs heq
    rw [hcc] at heq
    by_cases hc : changed.length > 0
    · rw [if_pos hc] at heq; cases heq
    · rw [if_neg hc] at heq
      by_cases he : extra.length > 0
      · rw [if_pos he] at heq; cases heq
      · rw [if_neg he] at heq
        constructor
        · simpa using hc
        · simpa using he
  · intro p h' hp hnodup hpm hlk hne
    exact compareLoop_changed_mem env env.fileHashes env.sourceHashes [] []
      (sh1, changed, extra) p h' hnodup hloop hp hpm hlk hne

/-- Witness for C3 at a concrete environment with one changed file. -/
theorem C3_witness :
    compareCookbooks
      { fileHashes := [("recipes/default.rb", 1)],
        sourceHashes := [("recipes/default.rb", 2)],
        gitIgnoreFile := [], chefIgnoreFile := [] } =
      .changedErr ["recipes/default.rb"] :=
  (C3_compare_priority _ [("recipes/default.rb", 2)] ["recipes/default.rb"] []
    (by decide)).1 (by decide)

/-! ## The ignore decision over a pattern list (claim C2) -/

/-- Is a line of an ignore file considered (not blank, not a comment)? -/
def lineActive (line : String) : Bool :=
  let pattern := trimChars line.toList
  !(pattern.length == 0 || pattern.head? == some '#')

/-- The parsed pattern of a line. -/
def linePattern (line : String) : GitIgnorePattern :=
  parsePattern (String.mk (trimChars line.toList))

/-- The match result of a line's compiled regex against a path. -/
def lineMatch (name line : String) : Option Bool :=
  matchString (linePattern line).Regex name

/-- One step of the scanner loop, phrased through the line predicates. -/
theorem gitIgnoreLines_cons (name line : String) (rest : List String)
    (ign : Bool) :
    gitIgnoreLines name (line :: rest) ign =
      (if lineActive line = false then gitIgnoreLines name rest ign
       else
        match lineMatch name line with
        | none => none
        | some true =>
            if (linePattern line).Include then some false
            else gitIgnoreLines name rest true
        | some false => gitIgnoreLines name rest ign) := by
  by_cases hc : ((trimChars line.toList).length == 0 ||
      (trimChars line.toList).head? == some '#') = true
  · have hact : lineActive line = false := by
      simp only [lineActive]
      rw [hc]
      rfl
    simp only [gitIgnoreLines]
    rw [if_pos hc, if_pos hact]
  · have hcf : ((trimChars line.toList).length == 0 ||
        (trimChars line.toList).head? == some '#') = false :=
      Bool.eq_false_iff.mpr hc
    have hact : ¬lineActive line = false := by
      simp only [lineActive]
      rw [hcf]
      simp
    simp only [gitIgnoreLines]
    rw [if_neg hc, if_neg hact]
    rfl

/-- The scanner loop, characterized: when every considered pattern
evaluates without a matcher error, the result ignores the path iff some
non-negated pattern matches and no negated pattern matches — any
matching negated pattern forces "not ignored", whatever its position. -/
theorem gitIgnoreLines_characterization (name : String) :
    ∀ (lines : List String) (ign : Bool),
      (∀ l ∈ lines, lineActive l = true → lineMatch name l ≠ none) →
      gitIgnoreLines name lines ign =
        some ((ign || lines.any fun l =>
            lineActive l && (lineMatch name l == some true) &&
              !(linePattern l).Include) &&
          !(lines.any fun l =>
            lineActive l && (lineMatch name l == some true) &&
              (linePattern l).Include)) := by
  intro lines
  induction lines with
  | nil => intro ign _; simp [gitIgnoreLines]
  | cons line rest ih =>
      intro ign hdef
      have hrest : ∀ l ∈ rest, lineActive l = true → lineMatch name l ≠ none :=
        fun l hl => hdef l (List.mem_cons_of_mem _ hl)
      rw [gitIgnoreLines_cons]
      by_cases hact : lineActive line = true
      · have hmatch : lineMatch name line ≠ none :=
          hdef line (List.mem_cons_self _ _) hact
        rw [if_neg (by simp [hact])]
        cases hm : lineMatch name line with
        | none => exact absurd hm hmatch
        | some b =>
            cases b with
            | false =>
                rw [ih ign hrest]
                simp [List.any_cons, hact, hm]
            | true =>
                by_cases hinc : (linePattern line).Include = true
                · rw [if_pos hinc]
                  have : (line :: rest).any (fun l =>
                      lineActive l && (lineMatch name l == some true) &&
                        (linePattern l).Include) = true := by
                    simp [List.any_cons, hact, hm, hinc]
                  rw [this]
                  simp
                · rw [if_neg hinc]
                  rw [ih true hrest]
                  simp [List.any_cons, hact, hm, hinc]
      · have hact' : lineActive line = false := by simpa using hact
        rw [if_pos hact', ih ign hrest]
        simp [List.any_cons, hact']

/-- C2 (amended): the ignore decision is order-sensitive only through the
early exit on negation: the scan proceeds in file order and the *first*
matching negated pattern decides "not ignored" — a path matching a
negated pattern anywhere in the list is never reported ignored, whether
or not that negated pattern is the last matching pattern; with no
negated match, the path is ignored iff some non-negated pattern
matches. -/
theorem C2_negation_wins_when_matching (lines : List String) (name : String)
    (hdef : ∀ l ∈ lines, lineActive l = true → lineMatch name l ≠ none) :
    (GitIgnore lines name =
      some ((lines.any fun l =>
          lineActive l && (lineMatch name l == some true) &&
            !(linePattern l).Include) &&
        !(lines.any fun l =>
          lineActive l && (lineMatch name l == some true) &&
            (linePattern l).Include))) ∧
    (∀ l ∈ lines, lineActive l = true → lineMatch name l = some true →
      (linePattern l).Include = true → GitIgnore lines name = some false) := by
  have hchar := gitIgnoreLines_characterization name lines false hdef
  constructor
  · show gitIgnoreLines name lines false = _
    rw [hchar]
    simp
  · intro l hl hact hm hinc
    have hany : (lines.any fun l =>
        lineActive l && (lineMatch name l == some true) &&
          (linePattern l).Include) = true :=
      List.any_eq_true.mpr ⟨l, hl, by simp [hact, hm, hinc]⟩
    show gitIgnoreLines name lines false = some false
    rw [hchar, hany]
    simp

/-- Witness for the amended C2 at a concrete input: `important.swp` is
matched by the earlier `*.swp` but re-included by the later `!important.swp`. -/
theorem C2_amended_witness :
    GitIgnore ["*.swp", "!important.swp"] "important.swp" = some false :=
  (C2_negation_wins_when_matching ["*.swp", "!important.swp"] "important.swp"
      (by decide)).2
    "!important.swp" (by decide) (by decide) (by decide) (by decide)

/-- C2 counterexample: against patterns `!foo` followed by `foo` and path
`foo`, the last matching pattern in file order is the non-negated `foo`
(it matches, as the singleton run shows), yet the decision is "not
ignored": the negated pattern wins even though it is not the last
matching pattern, refuting the claim that negation wins only as the last
match. -/
theorem C2_counterexample :
    GitIgnore ["!foo", "foo"] "foo" = some false ∧
    GitIgnore ["foo"] "foo" = some true ∧
    (parsePattern "!foo").Include = true ∧
    (parsePattern "foo").Include = false := by
  refine ⟨by decide, by decide, by decide, by decide⟩

/-- Witness for C4 at a concrete environment where `metadata.json`
differs between the two sides. -/
theorem C4_witness :
    compareCookbooks
      { fileHashes := [("recipes/default.rb", 7), ("metadata.json", 1)],
        sourceHashes := [("recipes/default.rb", 7), ("metadata.json", 2)],
        gitIgnoreFile := [], chefIgnoreFile := [] } = .ok :=
  C4_metadata_always_excluded _ (by decide)
    (by
      intro f hf
      simp only [lookupA, beq_iff_eq]
      by_cases h1 : ("recipes/default.rb" : String) = f
      · simp [h1]
      · simp [h1, Ne.symm hf])

/-! ## Claims about the frozen checks and lint checks -/

/-- C10: the frozen-status query fails closed — whenever the upstream
lookup of a cookbook version returns an error, `cookbookFrozen` returns
`frozen = true` together with that error; a backend failure can never be
observed as "not frozen" with no error. -/
theorem C10_cookbookFrozen_fails_closed (gcv : ChefOracle)
    (name version e : String) (h : gcv name version = .lookupErr e) :
    cookbookFrozen gcv name version =
      (true, some ("Failed to get info for cookbook " ++ name ++
        " version " ++ version ++ ": " ++ e)) ∧
    (∀ (gcv' : ChefOracle) (n v : String),
      (cookbookFrozen gcv' n v).1 = false → (cookbookFrozen gcv' n v).2 = none) := by
  constructor
  · simp [cookbookFrozen, h]
  · intro gcv' n v
    rw [cookbookFrozen]
    cases gcv' n v with
    | lookupErr e' => intro hfalse; simp at hfalse
    | notFound => intro _; rfl
    | found fz => intro _; rfl

/-- Witness for C10 at a concrete failing oracle. -/
theorem C10_witness :
    cookbookFrozen (fun _ _ => .lookupErr "timeout") "apache2" "1.2.3" =
      (true, some ("Failed to get info for cookbook " ++ "apache2" ++
        " version " ++ "1.2.3" ++ ": " ++ "timeout")) :=
  (C10_cookbookFrozen_fails_closed (fun _ _ => .lookupErr "timeout")
    "apache2" "1.2.3" "timeout" rfl).1

/-- C9: a failed (lint-error, `StatusPreconditionFailed`) foodcritic or
rubocop check is bypassed iff the caller forced the upload and the
effective policy mode is "permissive"; in every other case — including a
tool-execution fault (`StatusInternalServerError`), which is never
bypassed — the failure is returned to the caller. -/
theorem C9_check_bypass_iff (ctx : ChecksCtx) :
    (continueAfterFailedCheck ctx = true ↔
      (ctx.forcedUpload = true ∧ ctx.mode = "permissive")) ∧
    (∀ m, ctx.foodcriticPath ≠ "" → ctx.foodcriticRes = .failed m →
      (ctx.forcedUpload = true ∧ ctx.mode = "permissive" →
        executeChecks ctx = rubocopPhase ctx) ∧
      (¬(ctx.forcedUpload = true ∧ ctx.mode = "permissive") →
        executeChecks ctx = (412, some m))) ∧
    (∀ m, ctx.rubocopPath ≠ "" → ctx.rubocopRes = .failed m →
      (ctx.forcedUpload = true ∧ ctx.mode = "permissive" →
        rubocopPhase ctx = (0, none)) ∧
      (¬(ctx.forcedUpload = true ∧ ctx.mode = "permissive") →
        rubocopPhase ctx = (412, some m))) ∧
    (∀ m, ctx.foodcriticPath ≠ "" → ctx.foodcriticRes = .execErr m →
      executeChecks ctx = (500, some m)) := by
  have hiff : continueAfterFailedCheck ctx = true ↔
      (ctx.forcedUpload = true ∧ ctx.mode = "permissive") := by
    rw [continueAfterFailedCheck, Bool.and_eq_true]
    constructor
    · intro h
      exact ⟨h.2, beq_iff_eq.mp h.1⟩
    · intro h
      exact ⟨beq_iff_eq.mpr h.2, h.1⟩
  refine ⟨hiff, ?_, ?_, ?_⟩
  · intro m hcfg hres
    have hcfgb : (ctx.foodcriticPath == "") = false := by simpa using hcfg
    constructor
    · intro h
      have hcont : continueAfterFailedCheck ctx = true := hiff.mpr h
      simp [executeChecks, hcfgb, hres, checkPhase, hcont]
    · intro h
      have hcont : continueAfterFailedCheck ctx = false :=
        Bool.eq_false_iff.mpr (fun hc => h (hiff.mp hc))
      simp [executeChecks, hcfgb, hres, checkPhase, hcont]
  · intro m hcfg hres
    have hcfgb : (ctx.rubocopPath == "") = false := by simpa using hcfg
    constructor
    · intro h
      have hcont : continueAfterFailedCheck ctx = true := hiff.mpr h
      simp [rubocopPhase, hcfgb, hres, checkPhase, hcont]
    · intro h
      have hcont : continueAfterFailedCheck ctx = false :=
        Bool.eq_false_iff.mpr (fun hc => h (hiff.mp hc))
      simp [rubocopPhase, hcfgb, hres, checkPhase, hcont]
  · intro m hcfg hres
    have hcfgb : (ctx.foodcriticPath == "") = false := by simpa using hcfg
    simp [executeChecks, hcfgb, hres, checkPhase]

/-- Witness for C9 at a concrete context: a failed foodcritic check,
forced upload, permissive mode. -/
theorem C9_witness :
    executeChecks
      { foodcriticPath := "/usr/bin/foodcritic", rubocopPath := "",
        foodcriticRes := .failed "FC001", rubocopRes := .pass,
        mode := "permissive", forcedUpload := true } =
      rubocopPhase
        { foodcriticPath := "/usr/bin/foodcritic", rubocopPath := "",
          foodcriticRes := .failed "FC001", rubocopRes := .pass,
          mode := "permissive", forcedUpload := true } :=
  ((C9_check_bypass_iff _).2.1 "FC001" (by decide) rfl).1 ⟨rfl, rfl⟩

/-- C8: when the uploaded name+version is already frozen upstream, the
upload request fails immediately with a client-fault (4xx) status: the
recorded trace holds only the frozen check — no archive build, no
`validateCookbookStatus` (source resolution, lint checks, content
comparison), no tag/publish, no audit commit, no upstream pass. -/
theorem C8_frozen_fails_before_side_effects (ctx : UploadCtx)
    (hm : ctx.mode ≠ "silent") (hmeth : ctx.method ≠ "DELETE")
    (hbody : ctx.bodyOK = true)
    (hfrozen : ctx.gcv ctx.cbName ctx.cbVersion = .found true) :
    processCookbook ctx =
      (.errorResp (if ctx.ridleyUA then 409 else 412), [Stage.frozenCheck]) ∧
    (400 ≤ (if ctx.ridleyUA then 409 else 412) ∧
      (if ctx.ridleyUA then 409 else 412) < 500) ∧
    Stage.archiveBuild ∉ (processCookbook ctx).2 ∧
    Stage.validateStatus ∉ (processCookbook ctx).2 ∧
    Stage.tagPublish ∉ (processCookbook ctx).2 ∧
    Stage.gitCommitSync ∉ (processCookbook ctx).2 ∧
    Stage.proxyPass ∉ (processCookbook ctx).2 := by
  have hcheck : checkCookbookFrozen ctx.gcv ctx.cbName ctx.cbVersion =
      (412, some frozenRefusalMsg) := by
    rw [checkCookbookFrozen, cookbookFrozen, hfrozen]
    rfl
  have hms : (ctx.mode == "silent") = false := by
    simpa using hm
  have hmain : processCookbook ctx =
      (.errorResp (if ctx.ridleyUA then 409 else 412), [Stage.frozenCheck]) := by
    rw [processCookbook]
    simp [hms, hbody, hcheck, hm, hmeth]
  refine ⟨hmain, by split <;> omega, ?_, ?_, ?_, ?_, ?_⟩ <;>
    · rw [hmain]
      simp

/-- C5: when the public registry's universe contains the requested name
but not the requested version, the community resolver performs the
configured fork search (a tags-only version-control search) before
declaring the upload a failure; when the universe does not contain the
name at all, it declares not-found for the community path (no source, no
error) without consulting forks. -/
theorem C5_fork_search_order (supermarket forks : String)
    (uni : UniverseMap) (dl : DownloadOracle) (sgfc : GitOracle)
    (name version : String) :
    (∀ cb, lookupA name uni = some cb → lookupA version cb = none →
      forks ≠ "" →
      (searchCommunityCookbooks supermarket forks (.ok uni) dl sgfc
          name version).2 =
        [SearchEv.supermarketQuery supermarket,
         SearchEv.forkSearch (splitComma forks) true] ∧
      (searchGit sgfc name version true (splitComma forks) = .ok none →
        (searchCommunityCookbooks supermarket forks (.ok uni) dl sgfc
            name version).1 =
          ⟨none, 412, some (nonExistingVersionMsg name version)⟩)) ∧
    (lookupA name uni = none →
      searchCommunityCookbooks supermarket forks (.ok uni) dl sgfc
          name version =
        (⟨none, 0, none⟩, [SearchEv.supermarketQuery supermarket])) := by
  constructor
  · intro cb hname hver hforks
    have hsm : searchSupermarket (.ok uni) dl name version = ⟨none, 1, none⟩ := by
      simp [searchSupermarket, hname, hver]
    have hfb : (forks != "") = true := by simpa using hforks
    constructor
    · rw [searchCommunityCookbooks, hsm]
      simp only [hfb, if_true]
      cases searchGit sgfc name version true (splitComma forks) with
      | error e => rfl
      | ok o => cases o <;> rfl
    · intro hgit
      rw [searchCommunityCookbooks, hsm]
      simp only [hfb, if_true, hgit]
      rfl
  · intro hname
    have hsm : searchSupermarket (.ok uni) dl name version = ⟨none, 0, none⟩ := by
      simp [searchSupermarket, hname]
    rw [searchCommunityCookbooks, hsm]
    rfl

/-! ## Lemmas for the constraint-syntax claim (C6) -/

theorem takeWhile_all_digits :
    ∀ (a : List Char), (∀ y ∈ a, y.isDigit = true) →
      a.takeWhile Char.isDigit = a ∧ a.dropWhile Char.isDigit = [] := by
  intro a
  induction a with
  | nil => intro _; exact ⟨rfl, rfl⟩
  | cons d t ih =>
      intro h
      have hd : d.isDigit = true := h d (List.mem_cons_self _ _)
      have ht := ih (fun y hy => h y (List.mem_cons_of_mem _ hy))
      constructor
      · simp [List.takeWhile_cons, hd, ht.1]
      · simp [List.dropWhile_cons, hd, ht.2]

theorem takeWhile_digits_append :
    ∀ (a : List Char) (x : Char) (rest : List Char),
      (∀ y ∈ a, y.isDigit = true) → x.isDigit = false →
      (a ++ x :: rest).takeWhile Char.isDigit = a ∧
        (a ++ x :: rest).dropWhile Char.isDigit = x :: rest := by
  intro a
  induction a with
  | nil =>
      intro x rest _ hx
      constructor
      · simp [List.takeWhile_cons, hx]
      · simp [List.dropWhile_cons, hx]
  | cons d t ih =>
      intro x rest h hx
      have hd : d.isDigit = true := h d (List.mem_cons_self _ _)
      have ht := ih x rest (fun y hy => h y (List.mem_cons_of_mem _ hy)) hx
      constructor
      · simp [List.takeWhile_cons, hd, ht.1]
      · simp [List.dropWhile_cons, hd, ht.2]

theorem chompDigits_eq_some {l r : List Char} (h : chompDigits l = some r) :
    ∃ d, d ≠ [] ∧ (∀ y ∈ d, y.isDigit = true) ∧ l = d ++ r := by
  rw [chompDigits] at h
  cases ht : l.takeWhile Char.isDigit with
  | nil => rw [ht] at h; cases h
  | cons c cs =>
      rw [ht] at h
      injection h with h
      refine ⟨c :: cs, by simp, ?_, ?_⟩
      · intro y hy
        exact List.mem_takeWhile_imp (ht ▸ hy)
      · rw [← h, ← ht]
        exact (List.takeWhile_append_dropWhile _ _).symm

theorem chompDigits_append_dot (d rest : List Char) (hd : d ≠ [])
    (hdig : ∀ y ∈ d, y.isDigit = true) :
    chompDigits (d ++ '.' :: rest) = some ('.' :: rest) := by
  have h := takeWhile_digits_append d '.' rest hdig (by decide)
  rw [chompDigits, h.1, h.2]
  cases d with
  | nil => exact absurd rfl hd
  | cons c cs => rfl

theorem chompDigits_all_digits (d : List Char) (hd : d ≠ [])
    (hdig : ∀ y ∈ d, y.isDigit = true) : chompDigits d = some [] := by
  have h := takeWhile_all_digits d hdig
  rw [chompDigits, h.1, h.2]
  cases d with
  | nil => exact absurd rfl hd
  | cons c cs => rfl

theorem isSemverChars_iff (l : List Char) :
    isSemverChars l = true ↔ ThreeComponents l := by
  constructor
  · intro h
    rw [isSemverChars] at h
    split at h
    · exact Bool.noConfusion h
    · rename_i rest h1
      split at h
      · rename_i r2
        split at h
        · exact Bool.noConfusion h
        · rename_i rest2 h2
          split at h
          · rename_i r3
            have h3 : chompDigits r3 = some [] := by simpa using h
            obtain ⟨a, ha, hda, hla⟩ := chompDigits_eq_some h1
            obtain ⟨b, hb, hdb, hlb⟩ := chompDigits_eq_some h2
            obtain ⟨c, hc, hdc, hlc⟩ := chompDigits_eq_some h3
            refine ⟨a, b, c, ha, hb, hc, hda, hdb, hdc, ?_⟩
            rw [hla, hlb, hlc]
            simp
          · exact Bool.noConfusion h
      · exact Bool.noConfusion h
  · rintro ⟨a, b, c, ha, hb, hc, hda, hdb, hdc, heq⟩
    have h1 : chompDigits l = some ('.' :: (b ++ ['.'] ++ c)) := by
      rw [heq]
      have := chompDigits_append_dot a (b ++ ['.'] ++ c) ha hda
      simpa [List.append_assoc] using this
    have h2 : chompDigits (b ++ ['.'] ++ c) = some ('.' :: c) := by
      have := chompDigits_append_dot b c hb hdb
      simpa [List.append_assoc] using this
    have h3 : chompDigits c = some [] := chompDigits_all_digits c hc hdc
    rw [isSemverChars]
    simp only [h1, h2, h3]
    simp

/-- A component list never starts with `'='` (its head is a digit). -/
theorem ThreeComponents_head_digit {l : List Char} (h : ThreeComponents l) :
    ∃ d t, l = d :: t ∧ d.isDigit = true := by
  obtain ⟨a, b, c, ha, _, _, hda, _, _, heq⟩ := h
  cases a with
  | nil => exact absurd rfl ha
  | cons d t =>
      refine ⟨d, t ++ ['.'] ++ b ++ ['.'] ++ c, ?_, hda d (List.mem_cons_self _ _)⟩
      rw [heq]
      simp

theorem versionSubmatch_prefixed {s : String} {rest : List Char}
    (h : s.toList = '=' :: ' ' :: rest) :
    versionSubmatch s =
      (if isSemverChars rest then some (String.mk rest) else none) := by
  rw [versionSubmatch]
  split
  · rename_i rest' heq
    rw [h] at heq
    injection heq with _ heq
    injection heq with _ heq
    rw [heq]
  · rename_i hne
    exact absurd (hne rest h).elim id

theorem versionSubmatch_of_other {s : String}
    (h : ∀ rest, s.toList ≠ '=' :: ' ' :: rest) :
    versionSubmatch s = (if isSemverChars s.toList then some s else none) := by
  rw [versionSubmatch]
  split
  · rename_i rest heq
    exact absurd heq (h rest)
  · rfl

/-- C6: `parseCookbookVersions` classifies a constraint string as a
well-formed version exactly when it matches three dot-separated numeric
components optionally prefixed by `"= "` (the captured version being the
numeric part), and classifies every other string — including
`">=1.2.3"` and `"~>1.2.3"` — as malformed (`"BAD"`-tagged). -/
theorem C6_constraint_classification (name s : String) :
    ((versionSubmatch s).isSome ↔ SpecWellFormed s) ∧
    (∀ v, versionSubmatch s = some v → s = v ∨ s = "= " ++ v) ∧
    (∀ v, versionSubmatch s = some v →
      parseCookbookVersions [(name, s)] = [(name, [v])]) ∧
    (versionSubmatch s = none →
      parseCookbookVersions [(name, s)] = [(name, ["BAD" ++ s])]) ∧
    versionSubmatch "1.2.3" = some "1.2.3" ∧
    versionSubmatch "= 1.2.3" = some "1.2.3" ∧
    versionSubmatch ">=1.2.3" = none ∧
    versionSubmatch "~>1.2.3" = none := by
  refine ⟨?_, ?_, ?_, ?_, by decide, by decide, by decide, by decide⟩
  · by_cases hpre : ∃ rest, s.toList = '=' :: ' ' :: rest
    · obtain ⟨rest, hr⟩ := hpre
      rw [versionSubmatch_prefixed hr]
      constructor
      · intro hsome
        by_cases hsem : isSemverChars rest = true
        · exact Or.inr ⟨rest, hr, (isSemverChars_iff rest).mp hsem⟩
        · rw [if_neg hsem] at hsome
          cases hsome
      · intro hwf
        rcases hwf with hl | ⟨rest', hr', htc⟩
        · obtain ⟨d, t, hdt, hdig⟩ := ThreeComponents_head_digit hl
          rw [hr] at hdt
          injection hdt with hdt _
          rw [← hdt] at hdig
          cases hdig
        · rw [hr] at hr'
          injection hr' with _ hr'
          injection hr' with _ hr'
          rw [if_pos ((isSemverChars_iff rest).mpr (hr' ▸ htc))]
          rfl
    · push_neg at hpre
      rw [versionSubmatch_of_other hpre]
      constructor
      · intro hsome
        by_cases hsem : isSemverChars s.toList = true
        · exact Or.inl ((isSemverChars_iff _).mp hsem)
        · rw [if_neg hsem] at hsome
          cases hsome
      · intro hwf
        rcases hwf with hl | ⟨rest', hr', _⟩
        · rw [if_pos ((isSemverChars_iff _).mpr hl)]
          rfl
        · exact absurd hr' (hpre rest')
  · intro v hv
    by_cases hpre : ∃ rest, s.toList = '=' :: ' ' :: rest
    · obtain ⟨rest, hr⟩ := hpre
      rw [versionSubmatch_prefixed hr] at hv
      by_cases hsem : isSemverChars rest = true
      · rw [if_pos hsem] at hv
        injection hv with hv
        right
        cases s with
        | mk d =>
            have hd : d = '=' :: ' ' :: rest := hr
            rw [← hv, hd]
            rfl
      · rw [if_neg hsem] at hv
        cases hv
    · push_neg at hpre
      rw [versionSubmatch_of_other hpre] at hv
      by_cases hsem : isSemverChars s.toList = true
      · rw [if_pos hsem] at hv
        injection hv with hv
        exact Or.inl hv
      · rw [if_neg hsem] at hv
        cases hv
  · intro v hv
    simp [parseCookbookVersions, hv]
  · intro hv
    simp [parseCookbookVersions, hv]

/-! ## Lemmas for the dependency-validation claim (C7) -/

/-- With an error-free oracle, `cookbookFrozen` carries no error. -/
theorem cookbookFrozen_no_err (gcv : ChefOracle) (name version : String)
    (hne : (gcv name version).isErr = false) :
    cookbookFrozen gcv name version =
      ((cookbookFrozen gcv name version).1, none) := by
  rw [cookbookFrozen]
  cases hgv : gcv name version with
  | lookupErr e => rw [hgv] at hne; exact Bool.noConfusion hne
  | notFound => rfl
  | found f => rfl

/-- The inner version loop, characterized by the closed form. -/
theorem depVersionsLoop_ok (gcv : ChefOracle) (vc : Bool) (name : String)
    (hne : ∀ n v, (gcv n v).isErr = false) :
    ∀ (vs : List String) (errors : List String),
      depVersionsLoop gcv vc name vs errors =
        .ok (errors ++ vs.flatMap fun v => depEntries gcv vc name v) := by
  intro vs
  induction vs with
  | nil => intro errors; simp [depVersionsLoop]
  | cons version rest ih =>
      intro errors
      rw [depVersionsLoop]
      by_cases h0 : (version == "0.0.0" || version == "BAD>= 0.0.0") = true
      · rw [if_pos h0, ih]
        rcases (by simpa using h0 :
            version = "0.0.0" ∨ version = "BAD>= 0.0.0") with h | h <;>
          simp [depEntries, h]
      · rw [if_neg h0]
        have hp0 : ¬(version = "0.0.0" ∨ version = "BAD>= 0.0.0") := by
          simpa using h0
        by_cases hbad : strStartsWith version "BAD" = true
        · rw [if_pos hbad, ih]
          by_cases hvc : vc = true <;>
            simp [depEntries, hp0, hbad, hvc]
        · rw [if_neg hbad]
          have hcf := cookbookFrozen_no_err gcv name version (hne name version)
          cases hfz : (cookbookFrozen gcv name version).1 with
          | true =>
              rw [hfz] at hcf
              simp only [hcf]
              rw [ih]
              simp [depEntries, hp0, hbad, hfz]
          | false =>
              rw [hfz] at hcf
              simp only [hcf]
              rw [ih]
              simp [depEntries, hp0, hbad, hfz]

/-- The outer constraint loop, characterized by the closed form. -/
theorem depLoop_ok (gcv : ChefOracle) (vc : Bool)
    (hne : ∀ n v, (gcv n v).isErr = false) :
    ∀ (cs : List (String × List String)) (errors : List String),
      depLoop gcv vc cs errors =
        .ok (errors ++ depFailures gcv vc cs) := by
  intro cs
  induction cs with
  | nil => intro errors; simp [depLoop, depFailures]
  | cons nv rest ih =>
      intro errors
      obtain ⟨name, versions⟩ := nv
      rw [depLoop]
      simp only [depVersionsLoop_ok gcv vc name hne]
      rw [ih]
      simp [depFailures]

/-- C7: `checkDependencies` examines every package/version pair without
short-circuiting on validation failures: every well-formed constraint
whose exact version is not frozen upstream contributes the entry
`"<name> version <version> needs to be frozen"`, membership is
independent of constraint ordering (permutation-invariant), and all
failures are returned together in one consolidated 412 error. -/
theorem C7_dependencies_collected (gcv : ChefOracle) (vc : Bool)
    (constraints constraints2 : List (String × List String))
    (hne : ∀ n v, (gcv n v).isErr = false) :
    (checkDependencies gcv constraints vc =
      (if depFailures gcv vc constraints = [] then (0, none)
       else (412, some (" - " ++
         String.intercalate "\n - " (depFailures gcv vc constraints))))) ∧
    (∀ name versions version, (name, versions) ∈ constraints →
      version ∈ versions → version ≠ "0.0.0" → version ≠ "BAD>= 0.0.0" →
      strStartsWith version "BAD" = false →
      (cookbookFrozen gcv name version).1 = false →
      needsFrozenMsg name version ∈ depFailures gcv vc constraints) ∧
    (constraints.Perm constraints2 →
      (depFailures gcv vc constraints).Perm (depFailures gcv vc constraints2)) := by
  refine ⟨?_, ?_, ?_⟩
  · rw [checkDependencies, depLoop_ok gcv vc hne]
    simp only [List.nil_append]
    by_cases hempty : depFailures gcv vc constraints = []
    · rw [if_pos hempty, hempty]
      rfl
    · rw [if_neg hempty]
      have : (depFailures gcv vc constraints).length > 0 :=
        List.length_pos.mpr hempty
      simp [this]
  · intro name versions version hmem hv h0 h0' hbad hfz
    refine List.mem_flatMap.mpr ⟨(name, versions), hmem, ?_⟩
    refine List.mem_flatMap.mpr ⟨version, hv, ?_⟩
    have h0b : (version == "0.0.0" || version == "BAD>= 0.0.0") = false := by
      simp [h0, h0']
    rw [depEntries, if_neg (by simp [h0b]), if_neg (by simp [hbad]),
      if_neg (by simp [hfz])]
    exact List.mem_singleton.mpr rfl
  · intro hperm
    exact List.Perm.flatMap_right _ hperm

/-- Witness for C7 at a concrete oracle and constraint set: `bar` at
`2.0.0` exists upstream but is not frozen. -/
theorem C7_witness :
    checkDependencies (fun _ _ => .found false) [("bar", ["2.0.0"])] false =
      (412, some (" - " ++
        String.intercalate "\n - " [needsFrozenMsg "bar" "2.0.0"])) := by
  have h := (C7_dependencies_collected (fun _ _ => .found false) false
    [("bar", ["2.0.0"])] [("bar", ["2.0.0"])] (fun _ _ => rfl)).1
  rw [h, if_neg (by decide)]
  rfl

/-- Witness for C6: the constraint `"= 2.0.1"` for `bar` parses to the
well-formed version `2.0.1`. -/
theorem C6_witness :
    parseCookbookVersions [("bar", "= 2.0.1")] = [("bar", ["2.0.1"])] :=
  (C6_constraint_classification "bar" "= 2.0.1").2.2.1 "2.0.1" (by decide)

/-- Witness for C5: a one-cookbook universe holding `apache2` only at
version `1.0.0`; requesting `1.9.9` triggers the fork search and the
not-found community outcome skips it. -/
theorem C5_witness :
    (searchCommunityCookbooks "https://supermarket.chef.io" "acme-forks"
        (.ok [("apache2", [("1.0.0", "p")])]) (fun _ _ _ => .error "unused")
        (fun _ _ _ _ => .ok none) "apache2" "1.9.9").2 =
      [SearchEv.supermarketQuery "https://supermarket.chef.io",
       SearchEv.forkSearch ["acme-forks"] true] ∧
    (searchCommunityCookbooks "https://supermarket.chef.io" "acme-forks"
        (.ok [("apache2", [("1.0.0", "p")])]) (fun _ _ _ => .error "unused")
        (fun _ _ _ _ => .ok none) "mysql" "1.0.0") =
      (⟨none, 0, none⟩,
       [SearchEv.supermarketQuery "https://supermarket.chef.io"]) :=
  ⟨((C5_fork_search_order "https://supermarket.chef.io" "acme-forks"
      [("apache2", [("1.0.0", "p")])] (fun _ _ _ => .error "unused")
      (fun _ _ _ _ => .ok none) "apache2" "1.9.9").1 [("1.0.0", "p")]
      (by decide) (by decide) (by decide)).1,
   (C5_fork_search_order "https://supermarket.chef.io" "acme-forks"
      [("apache2", [("1.0.0", "p")])] (fun _ _ _ => .error "unused")
      (fun _ _ _ _ => .ok none) "mysql" "1.0.0").2 (by decide)⟩

/-- Witness for C8 at a concrete context with a frozen upstream version. -/
theorem C8_witness :
    processCookbook
      { mode := "enforced", commitChanges := false, method := "PUT",
        ridleyUA := false, bodyOK := true,
        gcv := fun _ _ => .found true, cbName := "apache2",
        cbVersion := "1.0.0", cbFrozenFlag := true, buildOK := true,
        validateRes := (0, none), tagPublishRes := (0, none) } =
      (.errorResp 412, [Stage.frozenCheck]) :=
  (C8_frozen_fails_before_side_effects _ (by decide) (by decide) rfl rfl).1

end ChefGuard
